import Mathlib

/-!
# outline-ss-server: the cipher list, the salt policy and collector registration

A shallow embedding of `service/cipher_list.go` and of `registerCollector`
from `outlinecaddy/app.go`.

* Memory is explicit.  A `*CipherEntry` is an address, and the heap maps
  addresses to entries; an address without an entry is a nil or dangling
  pointer, and dereferencing it is a Go panic, rendered as `none`.
* A `*list.Element` is a record of its own address, the `list.List` that owns
  it (`e.list`) and its `Value`.  None of the three fields is written by the
  functions embedded here, so the record stands for the pointer.
* A `*list.List` is the address of the list together with the sequence of its
  elements from `Front()` following `Next()`.
* The mutex of `cipherList` has no effect on a sequential run and is left out.
-/

namespace OutlineSS

/-! ## Data model -/

/-- Value of a Go `netip.Addr`: the 128-bit address and the zone handle. -/
structure Addr where
  addr : Nat
  z : Nat
deriving DecidableEq, Repr

/-- The zero value `netip.Addr{}`. -/
def Addr.zero : Addr := ⟨0, 0⟩

/-- The two salt generators `MakeCipherEntry` chooses from:
`NewServerSaltGenerator(secret)` and `RandomServerSaltGenerator`. -/
inductive ServerSaltGenerator where
  | marked (secret : String)
  | random
deriving DecidableEq, Repr

/-- The part of `shadowsocks.EncryptionKey` the code reads: `SaltSize()`. -/
structure EncryptionKey where
  saltSize : Int
deriving DecidableEq, Repr

/-- Go struct `CipherEntry`. -/
structure CipherEntry where
  ID : String
  CryptoKey : EncryptionKey
  SaltGenerator : ServerSaltGenerator
  lastClientIP : Addr
deriving DecidableEq, Repr

/-- Two's complement wrap-around of a Go `int` (64 bits). -/
def wrapInt (x : Int) : Int := (x + 2 ^ 63) % 2 ^ 64 - 2 ^ 63

/-- Constant `minSaltEntropy`. -/
def minSaltEntropy : Int := 16

/-- Go `MakeCipherEntry`.  The constant `serverSaltMarkLen` is declared in
another file of the package than `cipher_list.go`, so it is a parameter. -/
def MakeCipherEntry (serverSaltMarkLen : Int) (id : String) (cryptoKey : EncryptionKey)
    (secret : String) : CipherEntry :=
  let saltGenerator :=
    if wrapInt (cryptoKey.saltSize - serverSaltMarkLen) ≥ minSaltEntropy then
      ServerSaltGenerator.marked secret
    else
      ServerSaltGenerator.random
  { ID := id, CryptoKey := cryptoKey, SaltGenerator := saltGenerator,
    lastClientIP := Addr.zero }

/-- The variant of a salt generator, forgetting the secret. -/
def ServerSaltGenerator.isMarked : ServerSaltGenerator → Bool
  | .marked _ => true
  | .random => false

/-- A `*list.Element`: its address, its owner `e.list` and its `Value`
(the address of a `CipherEntry`). -/
structure Element where
  ptr : Nat
  list : Nat
  Value : Nat
deriving DecidableEq, Repr

/-- A `*list.List`: its address and its elements in order from the front. -/
structure GoList where
  ptr : Nat
  elems : List Element
deriving DecidableEq, Repr

/-- Memory holding the `CipherEntry` values, by address. -/
abbrev Heap := Nat → Option CipherEntry

/-- State of a `cipherList`: the field `list` and the memory of the entries. -/
structure State where
  list : GoList
  heap : Heap

/-! ## Operations of `cipher_list.go` -/

/-- Go `matchesIP`.  `&&` evaluates its right operand, which dereferences the
entry, only when the left one is true. -/
def matchesIP (heap : Heap) (e : Element) (clientIP : Addr) : Option Bool :=
  if clientIP ≠ Addr.zero then
    match heap e.Value with
    | none => none
    | some c => some (decide (clientIP = c.lastClientIP))
  else
    some false

/-- One `for e := cl.list.Front(); e != nil; e = e.Next()` loop of
`SnapshotForClientIP`, over the remaining elements.  The loop state is the
array and the index `i`; the first loop stores the elements with
`matchesIP = true` (`want = true`), the second those with `matchesIP = false`.
A store outside the array is a panic. -/
def snapshotPass (heap : Heap) (clientIP : Addr) (want : Bool) :
    List Element → List (Option Element) × Nat → Option (List (Option Element) × Nat)
  | [], st => some st
  | e :: es, (cipherArray, i) =>
    match matchesIP heap e clientIP with
    | none => none
    | some m =>
      if m = want then
        if i < cipherArray.length then
          snapshotPass heap clientIP want es (cipherArray.set i (some e), i + 1)
        else
          none
      else
        snapshotPass heap clientIP want es (cipherArray, i)

/-- Go `(*cipherList).SnapshotForClientIP`.  The result is the array
`cipherArray`; a slot holding `none` is a nil pointer. -/
def SnapshotForClientIP (s : State) (clientIP : Addr) : Option (List (Option Element)) :=
  let cipherArray : List (Option Element) := List.replicate s.list.elems.length none
  match snapshotPass s.heap clientIP true s.list.elems (cipherArray, 0) with
  | none => none
  | some (cipherArray, i) =>
    match snapshotPass s.heap clientIP false s.list.elems (cipherArray, i) with
    | none => none
    | some (cipherArray, _) => some cipherArray

/-- Go `(*list.List).MoveToFront` of `container/list`: nothing happens when
`e.list != l` or `e` is already the front element; otherwise `e` is unlinked
and linked in again right after the root. -/
def MoveToFront (l : GoList) (e : Element) : GoList :=
  if e.list ≠ l.ptr ∨ l.elems.head? = some e then l
  else { l with elems := e :: l.elems.erase e }

/-- Go `(*cipherList).MarkUsedByClientIP`. -/
def MarkUsedByClientIP (s : State) (e : Element) (clientIP : Addr) : Option State :=
  let l := MoveToFront s.list e
  match s.heap e.Value with
  | none => none
  | some c =>
    some { list := l,
           heap := Function.update s.heap e.Value (some { c with lastClientIP := clientIP }) }

/-- Go `(*cipherList).Update`. -/
def Update (s : State) (src : GoList) : State :=
  { s with list := src }

/-- Go `NewCipherList`: `list.New()` at a fresh address, over the given memory. -/
def NewCipherList (ptr : Nat) (heap : Heap) : State :=
  { list := { ptr := ptr, elems := [] }, heap := heap }

/-! ## `registerCollector` of `outlinecaddy/app.go` -/

/-- An interface value holding a `prometheus.Collector`, as the type assertion
`.(T)` sees it: the nil interface, a value whose dynamic type is `T`, or a
value of some other dynamic type. -/
inductive Collector (T : Type) where
  | nil
  | ofT (v : T)
  | other (tag : Nat)
deriving DecidableEq, Repr

/-- Go `prometheus.AlreadyRegisteredError`. -/
structure AlreadyRegisteredError (T : Type) where
  ExistingCollector : Collector T
  NewCollector : Collector T
deriving DecidableEq, Repr

/-- A non-nil `error` returned by `Register`, by what `registerCollector`
reads of it: the text of `err.Error()` and the `AlreadyRegisteredError` that
`errors.As` finds in its chain, if there is one. -/
structure RegisterError (T : Type) where
  text : String
  alreadyRegistered : Option (AlreadyRegisteredError T)
deriving DecidableEq, Repr

/-- How a Go call ends: it returns a value or it panics. -/
inductive Outcome (α : Type) where
  | returned (v : α)
  | panicked
deriving DecidableEq, Repr

/-- Go `strings.Contains`. -/
def stringsContains (s substr : String) : Bool :=
  decide (substr.data <:+: s.data)

/-- Go `registerCollector`.  `registerer` is `registerer.Register`, giving
`none` for a nil error.  `are` starts as the zero `AlreadyRegisteredError`
and is filled in by `errors.As` when it succeeds; the single-value type
assertion `are.ExistingCollector.(T)` panics unless the interface holds a `T`. -/
def registerCollector {T : Type} (registerer : T → Option (RegisterError T)) (coll : T) :
    Outcome (T × Option (RegisterError T)) :=
  match registerer coll with
  | some err =>
    let are0 : AlreadyRegisteredError T := ⟨Collector.nil, Collector.nil⟩
    let (asOk, are) : Bool × AlreadyRegisteredError T :=
      match err.alreadyRegistered with
      | some a => (true, a)
      | none => (false, are0)
    let dupeErr := stringsContains err.text "duplicate metrics collector registration attempted"
    if !asOk || dupeErr then
      match are.ExistingCollector with
      | Collector.ofT v => Outcome.returned (v, none)
      | _ => Outcome.panicked
    else
      Outcome.returned (coll, some err)
  | none => Outcome.returned (coll, none)

/-! ## Predicates used to state the properties -/

/-- The list is well formed: every element is owned by the list and the
elements are pairwise distinct pointers. -/
def GoList.WF (l : GoList) : Prop :=
  (∀ e ∈ l.elems, e.list = l.ptr) ∧ (l.elems.map Element.ptr).Nodup

/-- The elements hold pairwise distinct entries. -/
def GoList.DistinctEntries (l : GoList) : Prop :=
  (l.elems.map Element.Value).Nodup

/-- Every element of the list holds an entry that exists in memory. -/
def Allocated (heap : Heap) (l : GoList) : Prop :=
  ∀ e ∈ l.elems, (heap e.Value).isSome = true

instance (l : GoList) : Decidable l.WF := by
  unfold GoList.WF; infer_instance

instance (l : GoList) : Decidable l.DistinctEntries := by
  unfold GoList.DistinctEntries; infer_instance

instance (heap : Heap) (l : GoList) : Decidable (Allocated heap l) := by
  unfold Allocated; infer_instance

/-- The entry held by `e` has `lastClientIP` equal to `A`. -/
def lastIPIs (heap : Heap) (A : Addr) (e : Element) : Bool :=
  match heap e.Value with
  | some c => decide (c.lastClientIP = A)
  | none => false

/-- The value of `matchesIP` where the entry exists: the address is set and
it is the entry's `lastClientIP`. -/
def matchesBool (heap : Heap) (A : Addr) (e : Element) : Bool :=
  decide (A ≠ Addr.zero) && lastIPIs heap A e

/-- The stable partition of the recency order by "lastClientIP equals `A`". -/
def partitionByLastIP (heap : Heap) (A : Addr) (l : List Element) : List Element :=
  l.filter (fun e => lastIPIs heap A e) ++ l.filter (fun e => !lastIPIs heap A e)

/-- The snapshot for `A` is a permutation of the list in which the elements
whose entry has `lastClientIP = A` come before all the others, each group in
the order of the list. -/
def SnapshotPartitionsByLastIP (s : State) (A : Addr) : Prop :=
  ∃ snap : List Element,
    SnapshotForClientIP s A = some (snap.map some) ∧
    snap.Perm s.list.elems ∧
    (∀ x ∈ snap, ∀ y ∈ snap, lastIPIs s.heap A x = true → lastIPIs s.heap A y = false →
      List.Sublist [x, y] snap) ∧
    (∀ x y, lastIPIs s.heap A x = lastIPIs s.heap A y → List.Sublist [x, y] s.list.elems →
      List.Sublist [x, y] snap) ∧
    snap = partitionByLastIP s.heap A s.list.elems

/-! ## Example states -/

/-- The address 9.9.9.9. -/
def ip9 : Addr := ⟨0x09090909, 1⟩

/-- The address 1.1.1.1. -/
def ip1 : Addr := ⟨0x01010101, 1⟩

/-- An entry of the examples with the given affinity. -/
def exEntry (id : String) (ip : Addr) : CipherEntry :=
  { ID := id, CryptoKey := ⟨32⟩, SaltGenerator := ServerSaltGenerator.marked "secret",
    lastClientIP := ip }

/-- Memory with four entries, at 101 to 104; the first three with the given
affinities, the fourth with none. -/
def exHeap (a b c : Addr) : Heap := fun p =>
  if p = 101 then some (exEntry "key-1" a)
  else if p = 102 then some (exEntry "key-2" b)
  else if p = 103 then some (exEntry "key-3" c)
  else if p = 104 then some (exEntry "key-4" Addr.zero)
  else none

def el1 : Element := ⟨11, 1, 101⟩
def el2 : Element := ⟨12, 1, 102⟩
def el3 : Element := ⟨13, 1, 103⟩
def el4 : Element := ⟨14, 2, 104⟩

/-- The list at address 1 holding `el1`, `el2`, `el3`. -/
def exList : GoList := ⟨1, [el1, el2, el3]⟩

/-- A second list, at address 2, holding `el4`. -/
def exList2 : GoList := ⟨2, [el4]⟩

/-- The empty list at address 3. -/
def exEmpty : GoList := ⟨3, []⟩

/-- The cipher list over `exList` with the given affinities. -/
def exState (a b c : Addr) : State := ⟨exList, exHeap a b c⟩

/-- An error of `Register` that is not an `AlreadyRegisteredError`: the one
the registry gives for a descriptor that clashes with a registered one. -/
def exOtherError : RegisterError Nat :=
  { text := "a previously registered descriptor with the same fully-qualified name as " ++
      "outline_build_info has different label names or a different help string",
    alreadyRegistered := none }

/-- A registerer whose `Register` fails with `exOtherError`. -/
def exFailingRegisterer : Nat → Option (RegisterError Nat) := fun _ => some exOtherError

/-- The claim on stale marks: a mark through an element of the replaced list
does not fail, leaves the new list as it is and leaves the `lastClientIP` of
every entry in memory as it is. -/
def StaleMarkChangesNothing (s : State) (src : GoList) (e : Element) (A : Addr) : Prop :=
  ∃ t : State, MarkUsedByClientIP (Update s src) e A = some t ∧
    t.list = src ∧
    ∀ p, (t.heap p).map CipherEntry.lastClientIP
      = ((Update s src).heap p).map CipherEntry.lastClientIP

/-! ## Lemmas on `matchesIP` and the two loops of the snapshot -/

theorem matchesIP_of_allocated (heap : Heap) (e : Element) (A : Addr)
    (h : (heap e.Value).isSome = true) :
    matchesIP heap e A = some (matchesBool heap A e) := by
  unfold matchesIP matchesBool lastIPIs
  cases hv : heap e.Value with
  | none => simp [hv] at h
  | some c =>
    by_cases hA : A = Addr.zero
    · simp [hA]
    · simp [hA, eq_comm]

theorem matchesIP_zero (heap : Heap) (e : Element) :
    matchesIP heap e Addr.zero = some false := by
  simp [matchesIP]

theorem set_next_slot (pre : List Element) (e : Element) (k : Nat) :
    (pre.map some ++ List.replicate (k + 1) none).set pre.length (some e)
      = (pre ++ [e]).map some ++ List.replicate k none := by
  induction pre with
  | nil => simp [List.replicate_succ]
  | cons a pre ih => simpa using ih

/-- A loop of the snapshot started on an array whose first `pre.length` slots
are written and whose other `k` slots are nil, with room for the elements it
selects, appends exactly the selected elements in list order. -/
theorem snapshotPass_eq (heap : Heap) (A : Addr) (want : Bool) (f : Element → Bool) :
    ∀ (es pre : List Element) (k : Nat),
      (∀ e ∈ es, matchesIP heap e A = some (f e)) →
      (es.filter (fun e => f e == want)).length ≤ k →
      snapshotPass heap A want es (pre.map some ++ List.replicate k none, pre.length)
        = some ((pre ++ es.filter (fun e => f e == want)).map some
                  ++ List.replicate (k - (es.filter (fun e => f e == want)).length) none,
                pre.length + (es.filter (fun e => f e == want)).length) := by
  intro es
  induction es with
  | nil => intro pre k _ _; simp [snapshotPass]
  | cons e es ih =>
    intro pre k hf hk
    have he : matchesIP heap e A = some (f e) := hf e (List.mem_cons_self _ _)
    have hes : ∀ x ∈ es, matchesIP heap x A = some (f x) :=
      fun x hx => hf x (List.mem_cons_of_mem _ hx)
    by_cases hw : f e = want
    · have hfilt : (e :: es).filter (fun e => f e == want)
          = e :: es.filter (fun e => f e == want) := by simp [List.filter_cons, hw]
      rw [hfilt] at hk ⊢
      obtain ⟨k, rfl⟩ : ∃ j, k = j + 1 := ⟨k - 1, by simp at hk; omega⟩
      have hk2 : (es.filter (fun e => f e == want)).length ≤ k := by simp at hk; omega
      have hlen : pre.length < (pre.map some ++ List.replicate (k + 1) (none : Option Element)).length := by
        simp
      simp only [snapshotPass, he, hw, if_true, hlen]
      rw [set_next_slot]
      have := ih (pre ++ [e]) k hes hk2
      simp only [List.length_append, List.length_singleton] at this
      rw [this]
      simp [Nat.add_assoc, Nat.add_comm 1]
    · have hfilt : (e :: es).filter (fun e => f e == want)
          = es.filter (fun e => f e == want) := by simp [List.filter_cons, hw]
      rw [hfilt] at hk ⊢
      simp only [snapshotPass, he, hw, if_false]
      exact ih pre k hes hk

/-- The snapshot is the elements selected by `matchesIP` followed by the
others, both in list order, with every slot of the array written. -/
theorem SnapshotForClientIP_eq (s : State) (A : Addr) (f : Element → Bool)
    (hf : ∀ e ∈ s.list.elems, matchesIP s.heap e A = some (f e)) :
    SnapshotForClientIP s A
      = some ((s.list.elems.filter f ++ s.list.elems.filter (fun e => !f e)).map some) := by
  have hsplit := s.list.elems.length_eq_length_filter_add f
  have hT : (fun e => f e == true) = f := by funext e; simp
  have hF : (fun e => f e == false) = (fun e => !f e) := by funext e; simp
  have h1 := snapshotPass_eq s.heap A true f s.list.elems [] s.list.elems.length hf
    (List.length_filter_le _ _)
  rw [hT] at h1
  have h2 := snapshotPass_eq s.heap A false f s.list.elems (s.list.elems.filter f)
    (s.list.elems.length - (s.list.elems.filter f).length) hf (by rw [hF]; omega)
  rw [hF] at h2
  have hz : s.list.elems.length - (s.list.elems.filter f).length
      - (s.list.elems.filter (fun e => !f e)).length = 0 := by omega
  simp only [List.map_nil, List.nil_append, List.length_nil, Nat.zero_add] at h1
  unfold SnapshotForClientIP
  simp only [h1, h2, hz, List.replicate_zero, List.append_nil]

theorem SnapshotForClientIP_of_allocated (s : State) (A : Addr)
    (hs : Allocated s.heap s.list) :
    SnapshotForClientIP s A
      = some ((s.list.elems.filter (matchesBool s.heap A)
                ++ s.list.elems.filter (fun e => !matchesBool s.heap A e)).map some) :=
  SnapshotForClientIP_eq s A (matchesBool s.heap A)
    (fun e he => matchesIP_of_allocated s.heap e A (hs e he))

theorem SnapshotForClientIP_zero (s : State) :
    SnapshotForClientIP s Addr.zero = some (s.list.elems.map some) := by
  have h := SnapshotForClientIP_eq s Addr.zero (fun _ => false)
    (fun e _ => matchesIP_zero s.heap e)
  simpa using h

theorem matchesBool_of_ne_zero (heap : Heap) (A : Addr) (hA : A ≠ Addr.zero) :
    matchesBool heap A = lastIPIs heap A := by
  funext e; simp [matchesBool, hA]

theorem map_some_eq_iff (l m : List Element) : l.map some = m.map some ↔ l = m :=
  (List.map_injective_iff.2 (Option.some_injective Element)).eq_iff

theorem partition_perm (p : Element → Bool) (l : List Element) :
    (l.filter p ++ l.filter (fun e => !p e)).Perm l :=
  List.filter_append_perm p l

theorem partition_cross (p : Element → Bool) (l : List Element) (x y : Element)
    (hx : x ∈ l) (hy : y ∈ l) (hpx : p x = true) (hpy : p y = false) :
    List.Sublist [x, y] (l.filter p ++ l.filter (fun e => !p e)) := by
  have h1 : List.Sublist [x] (l.filter p) :=
    List.singleton_sublist.2 (List.mem_filter.2 ⟨hx, hpx⟩)
  have h2 : List.Sublist [y] (l.filter (fun e => !p e)) :=
    List.singleton_sublist.2 (List.mem_filter.2 ⟨hy, by simp [hpy]⟩)
  exact List.Sublist.append h1 h2

theorem partition_stable (p : Element → Bool) (l : List Element) (x y : Element)
    (hxy : p x = p y) (h : List.Sublist [x, y] l) :
    List.Sublist [x, y] (l.filter p ++ l.filter (fun e => !p e)) := by
  cases hpx : p x with
  | true =>
    have hpy : p y = true := by rw [← hxy, hpx]
    have := h.filter p
    simp only [List.filter_cons, hpx, hpy, if_true, List.filter_nil] at this
    exact this.trans (List.sublist_append_left _ _)
  | false =>
    have hpy : p y = false := by rw [← hxy, hpx]
    have := h.filter (fun e => !p e)
    simp only [List.filter_cons, hpx, hpy, Bool.not_false, if_true, List.filter_nil] at this
    exact this.trans (List.sublist_append_right _ _)

/-! ## Lemmas on `MoveToFront` and `MarkUsedByClientIP` -/

theorem GoList.WF.nodup {l : GoList} (h : l.WF) : l.elems.Nodup :=
  List.Nodup.of_map Element.ptr h.2

theorem MoveToFront_ptr (l : GoList) (e : Element) : (MoveToFront l e).ptr = l.ptr := by
  unfold MoveToFront; split <;> rfl

theorem MoveToFront_elems (l : GoList) (e : Element) (hl : e.list = l.ptr) :
    (MoveToFront l e).elems = e :: l.elems.erase e := by
  unfold MoveToFront
  by_cases hh : l.elems.head? = some e
  · obtain ⟨tl, htl⟩ := List.head?_eq_some_iff.1 hh
    simp [hl, hh, htl]
  · simp [hl, hh]

theorem MoveToFront_of_mem (l : GoList) (e : Element) (hwf : l.WF) (he : e ∈ l.elems) :
    MoveToFront l e = ⟨l.ptr, e :: l.elems.filter (fun x => x != e)⟩ := by
  have h1 := MoveToFront_ptr l e
  have h2 := MoveToFront_elems l e (hwf.1 e he)
  rw [hwf.nodup.erase_eq_filter] at h2
  cases hm : MoveToFront l e with
  | mk p es => rw [hm] at h1 h2; simp only at h1 h2; rw [h1, h2]

theorem MoveToFront_stale (l : GoList) (e : Element) (h : e.list ≠ l.ptr) :
    MoveToFront l e = l := by
  simp [MoveToFront, h]

/-- What `MarkUsedByClientIP` does to a well-formed list through one of its
elements. -/
theorem MarkUsedByClientIP_of_mem (s : State) (e : Element) (A : Addr)
    (hwf : s.list.WF) (hal : Allocated s.heap s.list) (he : e ∈ s.list.elems) :
    ∃ c, s.heap e.Value = some c ∧
      MarkUsedByClientIP s e A
        = some ⟨⟨s.list.ptr, e :: s.list.elems.filter (fun x => x != e)⟩,
                Function.update s.heap e.Value (some { c with lastClientIP := A })⟩ := by
  have h := hal e he
  cases hc : s.heap e.Value with
  | none => simp [hc] at h
  | some c =>
    refine ⟨c, rfl, ?_⟩
    simp only [MarkUsedByClientIP, hc, MoveToFront_of_mem s.list e hwf he]

theorem lastIPIs_update_self (heap : Heap) (e : Element) (c : CipherEntry) (A X : Addr) :
    lastIPIs (Function.update heap e.Value (some { c with lastClientIP := A })) X e
      = decide (A = X) := by
  simp [lastIPIs]

theorem lastIPIs_update_other (heap : Heap) (e x : Element) (c : Option CipherEntry) (X : Addr)
    (h : x.Value ≠ e.Value) :
    lastIPIs (Function.update heap e.Value c) X x = lastIPIs heap X x := by
  simp [lastIPIs, Function.update_noteq h]

theorem value_ne_of_ne {l : GoList} (hd : l.DistinctEntries) {x e : Element}
    (hx : x ∈ l.elems) (he : e ∈ l.elems) (hne : x ≠ e) : x.Value ≠ e.Value :=
  fun h => hne (List.inj_on_of_nodup_map hd hx he h)

theorem allocated_update (heap : Heap) (p : Nat) (c : CipherEntry) (es : List Element)
    (h : ∀ x ∈ es, (heap x.Value).isSome = true) :
    ∀ x ∈ es, (Function.update heap p (some c) x.Value).isSome = true := by
  intro x hx
  by_cases hp : x.Value = p
  · rw [hp, Function.update_same]; rfl
  · rw [Function.update_noteq hp]; exact h x hx

/-- The snapshot for any address `X` taken right after marking `e` with `A`,
in terms of the state before the mark: `e` is selected when `A = X` is set,
the other elements are selected as before. -/
theorem snapshot_after_mark (s : State) (e : Element) (A X : Addr) (c : CipherEntry)
    (hd : s.list.DistinctEntries) (hal : Allocated s.heap s.list)
    (he : e ∈ s.list.elems) :
    SnapshotForClientIP
        ⟨⟨s.list.ptr, e :: s.list.elems.filter (fun x => x != e)⟩,
         Function.update s.heap e.Value (some { c with lastClientIP := A })⟩ X
      = some (((e :: s.list.elems.filter (fun x => x != e)).filter
                  (fun x => if x = e then decide (X ≠ Addr.zero) && decide (A = X)
                            else matchesBool s.heap X x)
                ++ (e :: s.list.elems.filter (fun x => x != e)).filter
                  (fun x => !(if x = e then decide (X ≠ Addr.zero) && decide (A = X)
                              else matchesBool s.heap X x))).map some) := by
  apply SnapshotForClientIP_eq
  intro x hx
  simp only at hx ⊢
  have hx2 : x = e ∨ (x ∈ s.list.elems ∧ x ≠ e) := by
    rcases List.mem_cons.1 hx with h | h
    · exact Or.inl h
    · right; simpa using List.mem_filter.1 h
  have hall : (Function.update s.heap e.Value (some { c with lastClientIP := A }) x.Value).isSome
      = true := by
    rcases hx2 with h | ⟨h, _⟩
    · subst h; simp
    · exact allocated_update s.heap e.Value _ s.list.elems hal x h
  rw [matchesIP_of_allocated _ _ _ hall]
  rcases hx2 with h | ⟨h, hne⟩
  · subst h
    simp [matchesBool, lastIPIs_update_self]
  · simp only [hne, if_false, matchesBool]
    rw [lastIPIs_update_other _ _ _ _ _ (value_ne_of_ne hd h he hne)]

theorem filter_ne_congr (g m : Element → Bool) (e : Element) (l : List Element)
    (hg : ∀ x, x ≠ e → g x = m x) :
    (l.filter (fun x => x != e)).filter g = (l.filter (fun x => x != e)).filter m ∧
    (l.filter (fun x => x != e)).filter (fun x => !g x)
      = (l.filter (fun x => x != e)).filter (fun x => !m x) := by
  constructor <;>
  · apply List.filter_congr
    intro x hx
    have hne : x ≠ e := by simpa using (List.mem_filter.1 hx).2
    simp [hg x hne]

/-- Partitioning `e :: (l without e)` by a predicate that selects `e` and
agrees with `m` elsewhere gives `e` followed by the partition of `l` by `m`
with `e` removed; the same holds when nothing is selected at all. -/
theorem partition_after_front (g m : Element → Bool) (e : Element) (l : List Element)
    (hg : ∀ x, x ≠ e → g x = m x)
    (hge : g e = true ∨ (g e = false ∧ ∀ x ∈ l, m x = false)) :
    (e :: l.filter (fun x => x != e)).filter g
        ++ (e :: l.filter (fun x => x != e)).filter (fun x => !g x)
      = e :: (l.filter m ++ l.filter (fun x => !m x)).filter (fun x => x != e) := by
  obtain ⟨h1, h2⟩ := filter_ne_congr g m e l hg
  have hcomm1 : (fun a => m a && a != e) = (fun a => a != e && m a) := by
    funext a; exact Bool.and_comm _ _
  have hcomm2 : (fun a => !m a && a != e) = (fun a => a != e && !m a) := by
    funext a; exact Bool.and_comm _ _
  rcases hge with hge | ⟨hge, hm⟩
  · simp only [List.filter_cons, hge, if_true, Bool.not_true, Bool.false_eq_true, if_false,
      h1, h2, List.cons_append, List.filter_append, List.filter_filter, hcomm1, hcomm2]
  · have hm1 : l.filter m = [] := by
      apply List.filter_eq_nil_iff.2
      intro x hx; simp [hm x hx]
    have hm2 : l.filter (fun x => !m x) = l := by
      apply List.filter_eq_self.2
      intro x hx; simp [hm x hx]
    have hm3 : (l.filter (fun x => x != e)).filter m = [] := by
      apply List.filter_eq_nil_iff.2
      intro x hx; simp [hm x (List.mem_filter.1 hx).1]
    have hm4 : (l.filter (fun x => x != e)).filter (fun x => !m x)
        = l.filter (fun x => x != e) := by
      apply List.filter_eq_self.2
      intro x hx; simp [hm x (List.mem_filter.1 hx).1]
    simp only [List.filter_cons, hge, Bool.false_eq_true, if_false, Bool.not_false, if_true,
      h1, h2, hm1, hm2, hm3, hm4, List.nil_append]

/-- Partitioning `e :: (l without e)` by a predicate that rejects `e` and
agrees with `m` elsewhere keeps the selected elements of `l` without `e` in
front and puts `e` at the head of the others. -/
theorem partition_after_front_reject (g m : Element → Bool) (e : Element) (l : List Element)
    (hg : ∀ x, x ≠ e → g x = m x) (hge : g e = false) :
    (e :: l.filter (fun x => x != e)).filter g
        ++ (e :: l.filter (fun x => x != e)).filter (fun x => !g x)
      = (l.filter (fun x => x != e)).filter m
          ++ e :: (l.filter (fun x => x != e)).filter (fun x => !m x) := by
  obtain ⟨h1, h2⟩ := filter_ne_congr g m e l hg
  simp only [List.filter_cons, hge, Bool.false_eq_true, if_false, Bool.not_false, if_true,
    h1, h2]

/-! ## C1: the snapshot is a stable partition -/

/-- C1, as stated, fails at the unset address: in the list `el1, el2, el3`
where `el1` has affinity 1.1.1.1 and `el2` has none, the snapshot for the
unset address does not put `el2` (whose `lastClientIP` equals the unset
address) before `el1`. -/
theorem C1_unset_address_counterexample :
    GoList.WF exList ∧ GoList.DistinctEntries exList ∧
    Allocated (exState ip1 Addr.zero Addr.zero).heap exList ∧
    SnapshotForClientIP (exState ip1 Addr.zero Addr.zero) Addr.zero
      = some [some el1, some el2, some el3] ∧
    ¬ SnapshotPartitionsByLastIP (exState ip1 Addr.zero Addr.zero) Addr.zero := by
  refine ⟨by decide, by decide, by decide, ?_, ?_⟩
  · rw [SnapshotForClientIP_zero]; rfl
  · rintro ⟨snap, h1, -, h3, -, -⟩
    rw [SnapshotForClientIP_zero, Option.some.injEq, map_some_eq_iff] at h1
    subst h1
    have := h3 el2 (by decide) el1 (by decide) (by decide) (by decide)
    revert this
    decide

/-- C1 (amended): for every state whose elements hold entries and every set
(non-zero) client address `A`, `SnapshotForClientIP(A)` returns a permutation
of the list in which every element whose entry has `lastClientIP = A` comes
before every element whose entry has not, each group in the order of the list:
the stable partition of the recency order. -/
theorem C1_snapshot_stable_partition (s : State) (A : Addr)
    (hA : A ≠ Addr.zero) (hs : Allocated s.heap s.list) :
    SnapshotPartitionsByLastIP s A := by
  have hsnap := SnapshotForClientIP_of_allocated s A hs
  rw [matchesBool_of_ne_zero s.heap A hA] at hsnap
  refine ⟨partitionByLastIP s.heap A s.list.elems, hsnap, partition_perm _ _, ?_, ?_, rfl⟩
  · intro x hx y hy hpx hpy
    have hx2 := (partition_perm (lastIPIs s.heap A) s.list.elems).mem_iff.1 hx
    have hy2 := (partition_perm (lastIPIs s.heap A) s.list.elems).mem_iff.1 hy
    exact partition_cross _ _ x y hx2 hy2 hpx hpy
  · intro x y hxy h
    exact partition_stable _ _ x y hxy h

/-- The amended C1 at the list `el1, el2, el3` with affinities 9.9.9.9, 1.1.1.1 and none, for the address 1.1.1.1. -/
theorem C1_snapshot_stable_partition_witness :
    ip1 ≠ Addr.zero ∧ Allocated (exState ip9 ip1 Addr.zero).heap (exState ip9 ip1 Addr.zero).list ∧
    SnapshotPartitionsByLastIP (exState ip9 ip1 Addr.zero) ip1 :=
  ⟨by decide, by decide,
    C1_snapshot_stable_partition (exState ip9 ip1 Addr.zero) ip1 (by decide) (by decide)⟩

/-! ## C6: the unset address never matches -/

/-- C6: the unset address is never a match.  In every state, whatever the
entries hold (also an unset `lastClientIP`, as after `MakeCipherEntry`),
`matchesIP(e, unset)` is false for every element, and
`SnapshotForClientIP(unset)` is the list in its recency order. -/
theorem C6_unset_never_matches (s : State) :
    (∀ e : Element, matchesIP s.heap e Addr.zero = some false) ∧
    SnapshotForClientIP s Addr.zero = some (s.list.elems.map some) ∧
    (∀ (m : Int) (id : String) (key : EncryptionKey) (secret : String),
      (MakeCipherEntry m id key secret).lastClientIP = Addr.zero) :=
  ⟨fun e => matchesIP_zero s.heap e, SnapshotForClientIP_zero s, fun _ _ _ _ => rfl⟩

/-! ## C2: the effect of `MarkUsedByClientIP` -/

/-- C2: on a well-formed list with pairwise distinct entries, marking an
element `e` of the list with `A` returns the state whose list (the same list
object) is `e` followed by all other elements in their previous order, where
the entry of `e` has `lastClientIP = A` and unchanged `ID`, `CryptoKey` and
`SaltGenerator`, and where every other entry, in the list or anywhere else in
memory, is unchanged in all its fields. -/
theorem C2_mark_moves_to_front (s : State) (e : Element) (A : Addr)
    (hwf : s.list.WF) (hd : s.list.DistinctEntries) (hal : Allocated s.heap s.list)
    (he : e ∈ s.list.elems) :
    ∃ (t : State) (c c2 : CipherEntry), MarkUsedByClientIP s e A = some t ∧
      t.list.ptr = s.list.ptr ∧
      t.list.elems = e :: s.list.elems.filter (fun x => x != e) ∧
      s.heap e.Value = some c ∧ t.heap e.Value = some c2 ∧
      c2.lastClientIP = A ∧ c2.ID = c.ID ∧ c2.CryptoKey = c.CryptoKey ∧
      c2.SaltGenerator = c.SaltGenerator ∧
      (∀ x ∈ s.list.elems, x ≠ e → t.heap x.Value = s.heap x.Value) ∧
      (∀ p, p ≠ e.Value → t.heap p = s.heap p) := by
  obtain ⟨c, hc, hm⟩ := MarkUsedByClientIP_of_mem s e A hwf hal he
  refine ⟨_, c, { c with lastClientIP := A }, hm, rfl, rfl, hc, ?_, rfl, rfl, rfl, rfl, ?_, ?_⟩
  · simp
  · intro x hx hne
    exact Function.update_noteq (value_ne_of_ne hd hx he hne) _ _
  · intro p hp
    exact Function.update_noteq hp _ _

/-- C2 at the list `el1, el2, el3` with affinities 1.1.1.1, none and 1.1.1.1: marking `el2` with 9.9.9.9. -/
theorem C2_mark_moves_to_front_witness :
    ∃ (t : State) (c c2 : CipherEntry),
      MarkUsedByClientIP (exState ip1 Addr.zero ip1) el2 ip9 = some t ∧
      t.list.ptr = (exState ip1 Addr.zero ip1).list.ptr ∧
      t.list.elems = el2 :: (exState ip1 Addr.zero ip1).list.elems.filter (fun x => x != el2) ∧
      (exState ip1 Addr.zero ip1).heap el2.Value = some c ∧ t.heap el2.Value = some c2 ∧
      c2.lastClientIP = ip9 ∧ c2.ID = c.ID ∧ c2.CryptoKey = c.CryptoKey ∧
      c2.SaltGenerator = c.SaltGenerator ∧
      (∀ x ∈ (exState ip1 Addr.zero ip1).list.elems, x ≠ el2 →
        t.heap x.Value = (exState ip1 Addr.zero ip1).heap x.Value) ∧
      (∀ p, p ≠ el2.Value → t.heap p = (exState ip1 Addr.zero ip1).heap p) :=
  C2_mark_moves_to_front (exState ip1 Addr.zero ip1) el2 ip9
    (by decide) (by decide) (by decide) (by decide)

/-! ## C3: the snapshot after a mark, for the marked address -/

/-- C3: on a well-formed list with pairwise distinct entries, after marking
an element `e` of the list with `A`, the snapshot for `A` is `e` followed by
the snapshot for `A` taken before the mark with `e` removed.  In particular,
when the list is `e1, e, e3` and no entry has an affinity, the snapshot before
the mark is `e1, e, e3` and the one after it is `e, e1, e3`. -/
theorem C3_snapshot_after_mark (s : State) (e : Element) (A : Addr)
    (hwf : s.list.WF) (hd : s.list.DistinctEntries) (hal : Allocated s.heap s.list)
    (he : e ∈ s.list.elems) :
    ∃ (t : State) (before : List Element), MarkUsedByClientIP s e A = some t ∧
      SnapshotForClientIP s A = some (before.map some) ∧
      SnapshotForClientIP t A = some ((e :: before.filter (fun x => x != e)).map some) ∧
      (∀ e1 e3 : Element, s.list.elems = [e1, e, e3] →
        (∀ x ∈ s.list.elems, lastIPIs s.heap Addr.zero x = true) →
        before = [e1, e, e3] ∧
        SnapshotForClientIP t A = some [some e, some e1, some e3]) := by
  obtain ⟨c, hc, hm⟩ := MarkUsedByClientIP_of_mem s e A hwf hal he
  have hbefore := SnapshotForClientIP_of_allocated s A hal
  have hafter := snapshot_after_mark s e A A c hd hal he
  have hpart := partition_after_front
    (fun x => if x = e then decide (A ≠ Addr.zero) && decide (A = A) else matchesBool s.heap A x)
    (matchesBool s.heap A) e s.list.elems
    (fun x hx => by simp [hx])
    (by
      by_cases hA : A = Addr.zero
      · right
        refine ⟨by simp [hA], fun x _ => by simp [matchesBool, hA]⟩
      · left; simp [hA])
  rw [hpart] at hafter
  refine ⟨_, _, hm, hbefore, hafter, ?_⟩
  intro e1 e3 hl hno
  have hnone : ∀ x ∈ s.list.elems, matchesBool s.heap A x = false := by
    intro x hx
    have h0 := hno x hx
    unfold matchesBool
    unfold lastIPIs at h0 ⊢
    cases hv : s.heap x.Value with
    | none => simp [hv] at h0
    | some cx =>
      simp only [hv, decide_eq_true_eq] at h0
      by_cases hA : A = Addr.zero
      · simp [hA]
      · have : ¬ Addr.zero = A := fun h => hA h.symm
        simp [h0, this]
  have hm1 : s.list.elems.filter (matchesBool s.heap A) = [] :=
    List.filter_eq_nil_iff.2 (fun x hx => by simp [hnone x hx])
  have hm2 : s.list.elems.filter (fun x => !matchesBool s.heap A x) = s.list.elems :=
    List.filter_eq_self.2 (fun x hx => by simp [hnone x hx])
  have hnd := hwf.nodup
  rw [hl] at hnd
  have hne1 : e1 ≠ e := by intro h; subst h; simp at hnd
  have hne3 : e3 ≠ e := by intro h; subst h; simp at hnd
  have hb : s.list.elems.filter (matchesBool s.heap A)
      ++ s.list.elems.filter (fun x => !matchesBool s.heap A x) = [e1, e, e3] := by
    rw [hm1, hm2, hl]; rfl
  refine ⟨hb, ?_⟩
  rw [hafter, hb]
  simp [List.filter_cons, hne1, hne3]

/-- C3 at the scenario of the specification: three entries without affinity, `el2` marked with 9.9.9.9; the snapshot goes from `el1, el2, el3` to `el2, el1, el3`. -/
theorem C3_snapshot_after_mark_witness :
    SnapshotForClientIP (exState Addr.zero Addr.zero Addr.zero) ip9
      = some [some el1, some el2, some el3] ∧
    ∃ t : State, MarkUsedByClientIP (exState Addr.zero Addr.zero Addr.zero) el2 ip9 = some t ∧
      SnapshotForClientIP t ip9 = some [some el2, some el1, some el3] := by
  obtain ⟨t, before, h1, h2, -, h4⟩ :=
    C3_snapshot_after_mark (exState Addr.zero Addr.zero Addr.zero) el2 ip9
      (by decide) (by decide) (by decide) (by decide)
  obtain ⟨h5, h6⟩ := h4 el1 el3 rfl (by decide)
  rw [h5] at h2
  exact ⟨h2, t, h1, h6⟩

/-! ## C4: a stale affinity no longer matches -/

/-- C4: on a well-formed list with pairwise distinct entries, let `e` be an
element whose entry has `lastClientIP = B` with `B` set, so that `e` matches
`B`.  After marking `e` with an address `A` other than `B`, `e` no longer
matches `B`, and the snapshot for `B` is `front ++ e :: back` where `front`
holds exactly the elements whose entry has `lastClientIP = B`, none of which
is `e`, and no element of `back` has `lastClientIP = B`. -/
theorem C4_stale_affinity_dropped (s : State) (e : Element) (A B : Addr)
    (hwf : s.list.WF) (hd : s.list.DistinctEntries) (hal : Allocated s.heap s.list)
    (he : e ∈ s.list.elems) (hB : B ≠ Addr.zero) (hAB : A ≠ B)
    (heB : lastIPIs s.heap B e = true) :
    matchesIP s.heap e B = some true ∧
    ∃ (t : State) (front back : List Element), MarkUsedByClientIP s e A = some t ∧
      matchesIP t.heap e B = some false ∧
      SnapshotForClientIP t B = some ((front ++ e :: back).map some) ∧
      (∀ x ∈ t.list.elems, lastIPIs t.heap B x = true ↔ x ∈ front) ∧
      (∀ x ∈ back, lastIPIs t.heap B x = false) ∧
      e ∉ front := by
  obtain ⟨c, hc, hm⟩ := MarkUsedByClientIP_of_mem s e A hwf hal he
  have hafter := snapshot_after_mark s e A B c hd hal he
  have hpart := partition_after_front_reject
    (fun x => if x = e then decide (B ≠ Addr.zero) && decide (A = B) else matchesBool s.heap B x)
    (matchesBool s.heap B) e s.list.elems
    (fun x hx => by simp [hx]) (by simp [hAB])
  rw [hpart, matchesBool_of_ne_zero s.heap B hB] at hafter
  have hother : ∀ x ∈ s.list.elems.filter (fun x => x != e),
      lastIPIs (Function.update s.heap e.Value (some { c with lastClientIP := A })) B x
        = lastIPIs s.heap B x := by
    intro x hx
    obtain ⟨hx1, hx2⟩ := List.mem_filter.1 hx
    exact lastIPIs_update_other _ _ _ _ _ (value_ne_of_ne hd hx1 he (by simpa using hx2))
  have hself : lastIPIs (Function.update s.heap e.Value (some { c with lastClientIP := A })) B e
      = false := by
    rw [lastIPIs_update_self]; simp [hAB]
  refine ⟨?_, _, _, _, hm, ?_, hafter, ?_, ?_, ?_⟩
  · rw [matchesIP_of_allocated _ _ _ (hal e he)]
    simp [matchesBool, hB, heB]
  · rw [matchesIP_of_allocated _ _ _ (by simp)]
    simp [matchesBool, hself]
  · intro x hx
    rcases List.mem_cons.1 hx with h | h
    · subst h
      simp [hself]
    · rw [hother x h, List.mem_filter]
      exact ⟨fun hp => ⟨h, hp⟩, fun hp => hp.2⟩
  · intro x hx
    obtain ⟨hx1, hx2⟩ := List.mem_filter.1 hx
    rw [hother x hx1]
    simpa using hx2
  · intro hmem
    have := (List.mem_filter.1 (List.mem_filter.1 hmem).1).2
    simp at this

/-- C4 at the list `el1, el2, el3` where all three have affinity 1.1.1.1: marking `el2` with 9.9.9.9. -/
theorem C4_stale_affinity_dropped_witness :
    matchesIP (exState ip1 ip1 ip1).heap el2 ip1 = some true ∧
    ∃ (t : State) (front back : List Element),
      MarkUsedByClientIP (exState ip1 ip1 ip1) el2 ip9 = some t ∧
      matchesIP t.heap el2 ip1 = some false ∧
      SnapshotForClientIP t ip1 = some ((front ++ el2 :: back).map some) ∧
      (∀ x ∈ t.list.elems, lastIPIs t.heap ip1 x = true ↔ x ∈ front) ∧
      (∀ x ∈ back, lastIPIs t.heap ip1 x = false) ∧
      el2 ∉ front :=
  C4_stale_affinity_dropped (exState ip1 ip1 ip1) el2 ip9 ip1
    (by decide) (by decide) (by decide) (by decide) (by decide) (by decide) (by decide)

/-! ## C5: the choice of the salt generator -/

theorem wrapInt_of_inRange (x : Int) (h1 : -2 ^ 63 ≤ x) (h2 : x < 2 ^ 63) : wrapInt x = x := by
  unfold wrapInt
  omega

/-- C5: for a key whose salt size and a tag length that are sizes held in a
Go `int` (non-negative, below 2^63), `MakeCipherEntry` chooses the Marked
generator `NewServerSaltGenerator(secret)` exactly when
`saltSize - tagLength >= 16` and `RandomServerSaltGenerator` exactly when
`saltSize - tagLength < 16`; below the floor no Marked generator is chosen
whatever the secret; and the variant is the same for every id, secret and key
of the same salt size. -/
theorem C5_salt_generator_choice (tagLength : Int) (id secret : String) (key : EncryptionKey)
    (hs0 : 0 ≤ key.saltSize) (hs1 : key.saltSize < 2 ^ 63)
    (ht0 : 0 ≤ tagLength) (ht1 : tagLength < 2 ^ 63) :
    ((MakeCipherEntry tagLength id key secret).SaltGenerator = ServerSaltGenerator.marked secret
      ↔ key.saltSize - tagLength ≥ 16) ∧
    ((MakeCipherEntry tagLength id key secret).SaltGenerator = ServerSaltGenerator.random
      ↔ key.saltSize - tagLength < 16) ∧
    (key.saltSize - tagLength < 16 → ∀ sec : String,
      (MakeCipherEntry tagLength id key secret).SaltGenerator ≠ ServerSaltGenerator.marked sec) ∧
    (∀ (id2 secret2 : String) (key2 : EncryptionKey), key2.saltSize = key.saltSize →
      (MakeCipherEntry tagLength id2 key2 secret2).SaltGenerator.isMarked
        = (MakeCipherEntry tagLength id key secret).SaltGenerator.isMarked) := by
  have hw : wrapInt (key.saltSize - tagLength) = key.saltSize - tagLength :=
    wrapInt_of_inRange _ (by omega) (by omega)
  by_cases h : key.saltSize - tagLength ≥ 16
  · have hn : ¬ key.saltSize - tagLength < 16 := by omega
    refine ⟨?_, ?_, ?_, ?_⟩
    · simp [MakeCipherEntry, hw, minSaltEntropy, h]
    · simp [MakeCipherEntry, hw, minSaltEntropy, h, hn]
    · intro h2; exact absurd h2 hn
    · intro id2 secret2 key2 hk
      simp [MakeCipherEntry, hk, hw, minSaltEntropy, h, ServerSaltGenerator.isMarked]
  · have hn : key.saltSize - tagLength < 16 := by omega
    refine ⟨?_, ?_, ?_, ?_⟩
    · simp [MakeCipherEntry, hw, minSaltEntropy, h]
    · simp [MakeCipherEntry, hw, minSaltEntropy, h, hn]
    · intro _ sec
      simp [MakeCipherEntry, hw, minSaltEntropy, h]
    · intro id2 secret2 key2 hk
      simp [MakeCipherEntry, hk, hw, minSaltEntropy, h, ServerSaltGenerator.isMarked]

/-- C5 with a tag length of 4: a salt size of 32 gives the Marked generator, a salt size of 16 the Random one. -/
theorem C5_salt_generator_choice_witness :
    (MakeCipherEntry 4 "key-1" ⟨32⟩ "secret").SaltGenerator = ServerSaltGenerator.marked "secret" ∧
    (MakeCipherEntry 4 "key-1" ⟨16⟩ "secret").SaltGenerator = ServerSaltGenerator.random :=
  ⟨(C5_salt_generator_choice 4 "key-1" "secret" ⟨32⟩ (by decide) (by decide) (by decide)
      (by decide)).1.2 (by decide),
   (C5_salt_generator_choice 4 "key-1" "secret" ⟨16⟩ (by decide) (by decide) (by decide)
      (by decide)).2.1.2 (by decide)⟩

/-! ## C7: a mark through an element of a replaced list -/

/-- C7, as stated, fails: after the list `el1, el2, el3` (no affinities) is
replaced by an empty list, marking the stale element `el2` with 9.9.9.9 does
not fail and leaves the new list empty, but it writes 9.9.9.9 into the
`lastClientIP` of the stale entry at 102. -/
theorem C7_stale_mark_counterexample :
    GoList.WF exList ∧ GoList.DistinctEntries exList ∧ el2 ∈ exList.elems ∧
    (∃ t : State,
      MarkUsedByClientIP (Update (exState Addr.zero Addr.zero Addr.zero) exEmpty) el2 ip9 = some t ∧
      t.list = exEmpty ∧
      (t.heap 102).map CipherEntry.lastClientIP = some ip9 ∧
      ((Update (exState Addr.zero Addr.zero Addr.zero) exEmpty).heap 102).map
        CipherEntry.lastClientIP = some Addr.zero) ∧
    ¬ StaleMarkChangesNothing (exState Addr.zero Addr.zero Addr.zero) exEmpty el2 ip9 := by
  have hmark : MarkUsedByClientIP (Update (exState Addr.zero Addr.zero Addr.zero) exEmpty) el2 ip9
      = some ⟨exEmpty, Function.update (exHeap Addr.zero Addr.zero Addr.zero) 102
          (some (exEntry "key-2" ip9))⟩ := by
    simp [MarkUsedByClientIP, MoveToFront, Update, exState, exHeap, exEmpty, el2, exEntry]
  refine ⟨by decide, by decide, by decide, ⟨_, hmark, rfl, ?_, ?_⟩, ?_⟩
  · simp [exEntry]
  · simp [Update, exState, exHeap, exEntry]
  · rintro ⟨t, ht, -, hp⟩
    rw [hmark, Option.some.injEq] at ht
    subst ht
    have h := hp 102
    simp [Update, exState, exHeap, exEntry, ip9, Addr.zero] at h

/-- C7 (amended): for a well-formed old list whose elements hold entries, an
element `e` of it, a replacement list that is another list object, and any
address `A`: `MarkUsedByClientIP(e, A)` after `Update` does not fail and
leaves the new list as it is, order included; the entry of `e` gets
`lastClientIP = A` with its other fields unchanged, and every other entry in
memory is unchanged. -/
theorem C7_stale_mark_keeps_list (s : State) (src : GoList) (e : Element) (A : Addr)
    (hwf : s.list.WF) (hal : Allocated s.heap s.list) (he : e ∈ s.list.elems)
    (hsrc : src.ptr ≠ s.list.ptr) :
    ∃ (t : State) (c : CipherEntry), MarkUsedByClientIP (Update s src) e A = some t ∧
      t.list = src ∧
      (Update s src).heap e.Value = some c ∧
      t.heap e.Value = some { c with lastClientIP := A } ∧
      (∀ p, p ≠ e.Value → t.heap p = (Update s src).heap p) := by
  have h := hal e he
  have hstale : e.list ≠ src.ptr := by rw [hwf.1 e he]; exact fun h => hsrc h.symm
  cases hc : s.heap e.Value with
  | none => simp [hc] at h
  | some c =>
    refine ⟨⟨src, Function.update s.heap e.Value (some { c with lastClientIP := A })⟩, c,
      ?_, rfl, hc, ?_, ?_⟩
    · simp only [MarkUsedByClientIP, Update, hc, MoveToFront_stale src e hstale]
    · simp
    · intro p hp
      exact Function.update_noteq hp _ _

/-- The amended C7 at the list `el1, el2, el3` replaced by the list holding `el4`: marking the stale `el1` with 9.9.9.9. -/
theorem C7_stale_mark_keeps_list_witness :
    ∃ (t : State) (c : CipherEntry),
      MarkUsedByClientIP (Update (exState ip1 Addr.zero Addr.zero) exList2) el1 ip9 = some t ∧
      t.list = exList2 ∧
      (Update (exState ip1 Addr.zero Addr.zero) exList2).heap el1.Value = some c ∧
      t.heap el1.Value = some { c with lastClientIP := ip9 } ∧
      (∀ p, p ≠ el1.Value → t.heap p = (Update (exState ip1 Addr.zero Addr.zero) exList2).heap p) :=
  C7_stale_mark_keeps_list (exState ip1 Addr.zero Addr.zero) exList2 el1 ip9
    (by decide) (by decide) (by decide) (by decide)

/-! ## C8: `Update` replaces the whole contents -/

/-- C8: for a well-formed prior list and a well-formed replacement list that
is another list object and whose elements hold entries, the snapshot taken
after `Update` for any address is the stable partition of the replacement
list by `matchesIP`, hence a permutation of its elements, and holds no
element of the prior list; after `Update` with an empty list the snapshot is
empty for every address. -/
theorem C8_update_replaces_contents (s : State) (src : GoList) (A : Addr)
    (hwf : s.list.WF) (hsrc : src.WF) (hal : Allocated s.heap src)
    (hne : src.ptr ≠ s.list.ptr) :
    (∃ snap : List Element,
      SnapshotForClientIP (Update s src) A = some (snap.map some) ∧
      snap = src.elems.filter (matchesBool s.heap A)
              ++ src.elems.filter (fun e => !matchesBool s.heap A e) ∧
      snap.Perm src.elems ∧
      (∀ x, x ∈ snap ↔ x ∈ src.elems) ∧
      (∀ x ∈ s.list.elems, x ∉ snap)) ∧
    (∀ (emp : GoList) (B : Addr), emp.elems = [] →
      SnapshotForClientIP (Update s emp) B = some []) := by
  constructor
  · have hsnap := SnapshotForClientIP_of_allocated (Update s src) A hal
    have hperm := partition_perm (matchesBool s.heap A) src.elems
    refine ⟨_, hsnap, rfl, hperm, fun x => hperm.mem_iff, ?_⟩
    intro x hx hmem
    have h1 := hwf.1 x hx
    have h2 := hsrc.1 x (hperm.mem_iff.1 hmem)
    exact hne (h2.symm.trans h1)
  · intro emp B hemp
    have hal2 : Allocated (Update s emp).heap (Update s emp).list := by
      intro x hx
      simp [Update, hemp] at hx
    have := SnapshotForClientIP_of_allocated (Update s emp) B hal2
    simpa [Update, hemp] using this

/-- C8 at the list `el1, el2, el3` replaced by the list holding `el4`, and replaced by the empty list. -/
theorem C8_update_replaces_contents_witness :
    SnapshotForClientIP (Update (exState ip1 Addr.zero Addr.zero) exList2) ip1
      = some [some el4] ∧
    el1 ∉ [el4] ∧ el2 ∉ [el4] ∧ el3 ∉ [el4] ∧
    SnapshotForClientIP (Update (exState ip1 Addr.zero Addr.zero) exEmpty) ip1 = some [] := by
  obtain ⟨⟨snap, h1, h2, -, -, -⟩, hemp⟩ :=
    C8_update_replaces_contents (exState ip1 Addr.zero Addr.zero) exList2 ip1
      (by decide) (by decide) (by decide) (by decide)
  have h3 : snap = [el4] := by rw [h2]; decide
  rw [h3] at h1
  exact ⟨h1, by decide, by decide, by decide, hemp exEmpty ip1 rfl⟩

/-! ## C10: `registerCollector` on a failed registration -/

theorem registerCollector_success {T : Type} (registerer : T → Option (RegisterError T))
    (coll : T) (h : registerer coll = none) :
    registerCollector registerer coll = Outcome.returned (coll, none) := by
  simp [registerCollector, h]

theorem registerCollector_already_registered {T : Type}
    (registerer : T → Option (RegisterError T)) (coll existing : T) (err : RegisterError T)
    (a : AlreadyRegisteredError T) (h : registerer coll = some err)
    (has : err.alreadyRegistered = some a) (hex : a.ExistingCollector = Collector.ofT existing)
    (htext : stringsContains err.text "duplicate metrics collector registration attempted"
      = true) :
    registerCollector registerer coll = Outcome.returned (existing, none) := by
  simp [registerCollector, h, has, hex, htext]

theorem registerCollector_other_error {T : Type} (registerer : T → Option (RegisterError T))
    (coll : T) (err : RegisterError T) (h : registerer coll = some err)
    (hnot : err.alreadyRegistered = none) :
    registerCollector registerer coll = Outcome.panicked := by
  simp [registerCollector, h, hnot]

/-- C10: when `Register` fails with an error that is not an
`AlreadyRegisteredError`, `registerCollector` does not return that error: it
takes the branch meant for a collector registered before and panics in the
type assertion on the nil `ExistingCollector`. -/
theorem C10_registerCollector_other_error_panics :
    exOtherError.alreadyRegistered = none ∧
    registerCollector exFailingRegisterer 7 = Outcome.panicked :=
  ⟨rfl, registerCollector_other_error exFailingRegisterer 7 exOtherError rfl rfl⟩

end OutlineSS
